import Mathlib

/-!
Verification of the character-substitution cipher in `ExcryptDecrypt.py`.

The transform engine is embedded shallowly: Python `str` characters become
`Char`, Python integers become `Int` (Python's `%` on a positive modulus
agrees with `Int.emod`), texts become `List Char`, and the fallible
candidate search inside `decrypt_character` becomes `List.find?` over the
offsets `0..25`, exactly mirroring the `for i in range(26)` loop with its
early `return`.
-/

/-- Embedding of `encrypt_character(ch, shift1, shift2)`: the four-domain
forward transform.  Each branch computes the Python expression
`chr(((ord(ch) - ord(base) ± shift) % 26) + ord(base))` with the branch's
shift formula already reduced modulo 26, as in the source. -/
def encrypt_character (ch : Char) (shift1 shift2 : Int) : Char :=
  if 'a' ≤ ch ∧ ch ≤ 'z' then
    if ch ≤ 'm' then
      Char.ofNat ((((ch.toNat : Int) - 97 + (shift1 * shift2) % 26) % 26 + 97).toNat)
    else
      Char.ofNat ((((ch.toNat : Int) - 97 - (shift1 + shift2) % 26) % 26 + 97).toNat)
  else if 'A' ≤ ch ∧ ch ≤ 'Z' then
    if ch ≤ 'M' then
      Char.ofNat ((((ch.toNat : Int) - 65 - shift1 % 26) % 26 + 65).toNat)
    else
      Char.ofNat ((((ch.toNat : Int) - 65 + (shift2 * shift2) % 26) % 26 + 65).toNat)
  else ch

/-- Embedding of `decrypt_character(ch, shift1, shift2)`: brute-force
search, within the case alphabet of `ch`, for the first candidate offset
`i` in `0..25` whose encryption equals `ch`; if none is found the source
returns `ch` unchanged, and non-letters are returned unchanged. -/
def decrypt_character (ch : Char) (shift1 shift2 : Int) : Char :=
  if 'a' ≤ ch ∧ ch ≤ 'z' then
    match (List.range 26).find? (fun i => encrypt_character (Char.ofNat (97 + i)) shift1 shift2 == ch) with
    | some i => Char.ofNat (97 + i)
    | none => ch
  else if 'A' ≤ ch ∧ ch ≤ 'Z' then
    match (List.range 26).find? (fun i => encrypt_character (Char.ofNat (65 + i)) shift1 shift2 == ch) with
    | some i => Char.ofNat (65 + i)
    | none => ch
  else ch

/-- The pure core of `encrypt_file`: apply `encrypt_character` to every
character of the text, in order (`"".join(encrypt_character(ch, ...) for ch in text)`). -/
def encrypt_text (text : List Char) (shift1 shift2 : Int) : List Char :=
  text.map fun ch => encrypt_character ch shift1 shift2

/-- The pure core of `decrypt_file`: apply `decrypt_character` to every
character of the cipher text, in order. -/
def decrypt_text (cipher : List Char) (shift1 shift2 : Int) : List Char :=
  cipher.map fun ch => decrypt_character ch shift1 shift2

/-- The pure core of `verify_roundtrip`: recover every character of the
cipher text, re-encrypt the result, and compare with the cipher text. -/
def verify_roundtrip (cipher : List Char) (shift1 shift2 : Int) : Bool :=
  encrypt_text (decrypt_text cipher shift1 shift2) shift1 shift2 == cipher

/-- A record of the mismatch list built by `verify_strict`: either a
`(index, original_char, decrypted_char)` tuple or the trailing
`("length", len(original), len(decrypted))` hint. -/
inductive Mismatch where
  | charDiff (pos : Nat) (expected actual : Char)
  | lengthDiff (lenOriginal lenDecrypted : Nat)
deriving DecidableEq, Repr

/-- The collection loop of `verify_strict`: walk the common positions in
order, appending a record for each differing pair, and stop as soon as the
number of collected records reaches `cap` (Python appends and then breaks
when `len(mismatches) >= report_mismatches`).  `cnt` is the number of
records collected so far. -/
def collectMismatches (cap : Nat) : List (Nat × Char × Char) → Nat → List Mismatch
  | [], _ => []
  | (i, a, b) :: rest, cnt =>
    if a ≠ b then
      if cnt + 1 ≥ cap then [Mismatch.charDiff i a b]
      else Mismatch.charDiff i a b :: collectMismatches cap rest (cnt + 1)
    else collectMismatches cap rest cnt

/-- The pure core of `verify_strict(original, decrypted, report_mismatches)`:
returns `(ok, mismatches)`.  The zipped enumeration ranges over exactly the
positions `0 .. min(len original, len decrypted) - 1` that the Python loop
visits. -/
def verify_strict (original decrypted : List Char) (report_mismatches : Nat := 5) :
    Bool × List Mismatch :=
  if original = decrypted then (true, [])
  else
    let mismatches := collectMismatches report_mismatches ((original.zip decrypted).enum) 0
    if mismatches.length < report_mismatches ∧ original.length ≠ decrypted.length then
      (false, mismatches ++ [Mismatch.lengthDiff original.length decrypted.length])
    else
      (false, mismatches)

/-- Modelled from the spec: the wrap formula of §4.1, applying a signed
shift to a zero-based offset as `((offset + shift) mod 26 + 26) mod 26` and
mapping the result back into the alphabet starting at code point `base`. -/
def shiftWithWrap (base : Nat) (off shift : Int) : Char :=
  Char.ofNat (base + (((off + shift) % 26 + 26) % 26).toNat)

/-- Modelled from the spec: the character mismatches that `verify_strict`
should report, namely the earliest differing positions, as
`(position, expected, actual)` records in increasing position order,
capped at `cap` records. -/
def specCharMismatches (original decrypted : List Char) (cap : Nat) : List Mismatch :=
  ((((original.zip decrypted).enum.filter fun p => p.2.1 != p.2.2).map
      fun p => Mismatch.charDiff p.1 p.2.1 p.2.2).take cap)

/-- Modelled from the spec: the full mismatch report, i.e. the capped
character mismatches plus a trailing length-mismatch record when the two
texts differ in length and the cap was not yet reached. -/
def specMismatchReport (original decrypted : List Char) (cap : Nat) : List Mismatch :=
  let cms := specCharMismatches original decrypted cap
  if cms.length < cap ∧ original.length ≠ decrypted.length then
    cms ++ [Mismatch.lengthDiff original.length decrypted.length]
  else cms

/-! ### Character-level infrastructure -/

theorem char_le_iff {a b : Char} : a ≤ b ↔ a.toNat ≤ b.toNat := by
  rw [Char.le_def, UInt32.le_def, BitVec.le_def]; rfl

theorem char_toNat_ofNat {n : Nat} (h : n < 55296) : (Char.ofNat n).toNat = n := by
  unfold Char.ofNat
  rw [dif_pos (Or.inl h)]
  simp [Char.ofNatAux, Char.toNat, UInt32.toNat, UInt32.ofNat']

theorem char_toNat_inj {a b : Char} (h : a.toNat = b.toNat) : a = b := by
  rw [← Char.ofNat_toNat a, ← Char.ofNat_toNat b, h]

theorem toNat_lower {ch : Char} (h1 : 'a' ≤ ch) (h2 : ch ≤ 'z') :
    97 ≤ ch.toNat ∧ ch.toNat ≤ 122 := by
  rw [char_le_iff] at h1 h2
  exact ⟨h1, h2⟩

theorem toNat_upper {ch : Char} (h1 : 'A' ≤ ch) (h2 : ch ≤ 'Z') :
    65 ≤ ch.toNat ∧ ch.toNat ≤ 90 := by
  rw [char_le_iff] at h1 h2
  exact ⟨h1, h2⟩

theorem lower_reconstruct {ch : Char} (h1 : 'a' ≤ ch) (h2 : ch ≤ 'z') :
    Char.ofNat (97 + (ch.toNat - 97)) = ch := by
  have h := toNat_lower h1 h2
  have e : 97 + (ch.toNat - 97) = ch.toNat := by omega
  rw [e, Char.ofNat_toNat]

theorem upper_reconstruct {ch : Char} (h1 : 'A' ≤ ch) (h2 : ch ≤ 'Z') :
    Char.ofNat (65 + (ch.toNat - 65)) = ch := by
  have h := toNat_upper h1 h2
  have e : 65 + (ch.toNat - 65) = ch.toNat := by omega
  rw [e, Char.ofNat_toNat]

theorem lower_ofNat_bounds {j : Nat} (hj : j < 26) :
    'a' ≤ Char.ofNat (97 + j) ∧ Char.ofNat (97 + j) ≤ 'z' := by
  have hv : 97 + j < 55296 := by omega
  have ha : ('a').toNat = 97 := rfl
  have hz : ('z').toNat = 122 := rfl
  constructor <;> rw [char_le_iff, char_toNat_ofNat hv]
  · rw [ha]; omega
  · rw [hz]; omega

theorem upper_ofNat_bounds {j : Nat} (hj : j < 26) :
    'A' ≤ Char.ofNat (65 + j) ∧ Char.ofNat (65 + j) ≤ 'Z' := by
  have hv : 65 + j < 55296 := by omega
  have ha : ('A').toNat = 65 := rfl
  have hz : ('Z').toNat = 90 := rfl
  constructor <;> rw [char_le_iff, char_toNat_ofNat hv]
  · rw [ha]; omega
  · rw [hz]; omega

/-! ### First-match behaviour of the bounded candidate search -/

theorem find?_range_first {p : Nat → Bool} :
    ∀ {n j : Nat}, (List.range n).find? p = some j →
      p j = true ∧ j < n ∧ ∀ k, k < j → p k = false := by
  intro n
  induction n with
  | zero => intro j h; simp [List.range_zero] at h
  | succ n ih =>
    intro j h
    rw [List.range_succ, List.find?_append] at h
    cases hf : (List.range n).find? p with
    | some m =>
      rw [hf, Option.or_some] at h
      obtain rfl := Option.some.inj h
      obtain ⟨hp, hlt, hmin⟩ := ih hf
      exact ⟨hp, Nat.lt_succ_of_lt hlt, hmin⟩
    | none =>
      rw [hf, Option.none_or] at h
      by_cases hp : p n
      · rw [List.find?_cons_of_pos _ hp] at h
        obtain rfl := Option.some.inj h
        refine ⟨hp, Nat.lt_succ_self n, ?_⟩
        intro k hk
        have hfk := List.find?_eq_none.mp hf k (List.mem_range.mpr hk)
        simpa using hfk
      · rw [List.find?_cons_of_neg _ hp] at h
        simp at h

theorem find?_range_exists {p : Nat → Bool} {n i : Nat} (hi : i < n) (hp : p i = true) :
    ∃ j, (List.range n).find? p = some j := by
  cases hf : (List.range n).find? p with
  | some j => exact ⟨j, rfl⟩
  | none =>
    have := List.find?_eq_none.mp hf i (List.mem_range.mpr hi)
    simp [hp] at this

theorem first_match {p : Nat → Bool} {i : Nat} (hi : i < 26) (hp : p i = true) :
    ∃ j, j ≤ i ∧ p j = true ∧ (∀ k, k < j → p k = false) ∧
      (List.range 26).find? p = some j := by
  obtain ⟨j, hj⟩ := find?_range_exists hi hp
  obtain ⟨hpj, _, hmin⟩ := find?_range_first hj
  refine ⟨j, ?_, hpj, hmin, hj⟩
  by_contra hgt
  push_neg at hgt
  have := hmin i hgt
  rw [hp] at this
  cases this

/-! ### Branch behaviour of the forward transform -/

theorem encrypt_lower_am {ch : Char} (h1 : 'a' ≤ ch) (h2 : ch ≤ 'm') (s1 s2 : Int) :
    encrypt_character ch s1 s2 =
      Char.ofNat ((((ch.toNat : Int) - 97 + (s1 * s2) % 26) % 26 + 97).toNat) := by
  unfold encrypt_character
  rw [if_pos ⟨h1, le_trans h2 (by decide)⟩, if_pos h2]

theorem encrypt_lower_nz {ch : Char} (h1 : 'n' ≤ ch) (h2 : ch ≤ 'z') (s1 s2 : Int) :
    encrypt_character ch s1 s2 =
      Char.ofNat ((((ch.toNat : Int) - 97 - (s1 + s2) % 26) % 26 + 97).toNat) := by
  unfold encrypt_character
  rw [if_pos ⟨le_trans (by decide) h1, h2⟩,
    if_neg fun hm => absurd (le_trans h1 hm) (by decide)]

theorem encrypt_upper_AM {ch : Char} (h1 : 'A' ≤ ch) (h2 : ch ≤ 'M') (s1 s2 : Int) :
    encrypt_character ch s1 s2 =
      Char.ofNat ((((ch.toNat : Int) - 65 - s1 % 26) % 26 + 65).toNat) := by
  unfold encrypt_character
  rw [if_neg fun hl => absurd (le_trans hl.1 h2) (by decide),
    if_pos ⟨h1, le_trans h2 (by decide)⟩, if_pos h2]

theorem encrypt_upper_NZ {ch : Char} (h1 : 'N' ≤ ch) (h2 : ch ≤ 'Z') (s1 s2 : Int) :
    encrypt_character ch s1 s2 =
      Char.ofNat ((((ch.toNat : Int) - 65 + (s2 * s2) % 26) % 26 + 65).toNat) := by
  unfold encrypt_character
  rw [if_neg fun hl => absurd (le_trans hl.1 h2) (by decide),
    if_pos ⟨le_trans (by decide) h1, h2⟩,
    if_neg fun hm => absurd (le_trans h1 hm) (by decide)]

theorem encrypt_other {ch : Char} (hl : ¬('a' ≤ ch ∧ ch ≤ 'z'))
    (hu : ¬('A' ≤ ch ∧ ch ≤ 'Z')) (s1 s2 : Int) :
    encrypt_character ch s1 s2 = ch := by
  unfold encrypt_character
  rw [if_neg hl, if_neg hu]

theorem decrypt_other {ch : Char} (hl : ¬('a' ≤ ch ∧ ch ≤ 'z'))
    (hu : ¬('A' ≤ ch ∧ ch ≤ 'Z')) (s1 s2 : Int) :
    decrypt_character ch s1 s2 = ch := by
  unfold decrypt_character
  rw [if_neg hl, if_neg hu]

/-! ### Shift arithmetic is modulo 26 -/

theorem encrypt_character_emod (ch : Char) (s1 s2 : Int) :
    encrypt_character ch (s1 % 26) (s2 % 26) = encrypt_character ch s1 s2 := by
  unfold encrypt_character
  simp only [← Int.mul_emod, ← Int.add_emod, Int.emod_emod_of_dvd _ dvd_rfl]

theorem decrypt_character_emod (ch : Char) (s1 s2 : Int) :
    decrypt_character ch (s1 % 26) (s2 % 26) = decrypt_character ch s1 s2 := by
  unfold decrypt_character
  simp only [encrypt_character_emod]

/-! ### The forward transform preserves the case alphabet -/

theorem ofNat_emod_lower (x : Int) :
    'a' ≤ Char.ofNat ((x % 26 + 97).toNat) ∧ Char.ofNat ((x % 26 + 97).toNat) ≤ 'z' := by
  have h0 : 0 ≤ x % 26 := Int.emod_nonneg _ (by norm_num)
  have h1 : x % 26 < 26 := Int.emod_lt_of_pos _ (by norm_num)
  have e : (x % 26 + 97).toNat = 97 + (x % 26).toNat := by omega
  rw [e]
  exact lower_ofNat_bounds (by omega)

theorem ofNat_emod_upper (x : Int) :
    'A' ≤ Char.ofNat ((x % 26 + 65).toNat) ∧ Char.ofNat ((x % 26 + 65).toNat) ≤ 'Z' := by
  have h0 : 0 ≤ x % 26 := Int.emod_nonneg _ (by norm_num)
  have h1 : x % 26 < 26 := Int.emod_lt_of_pos _ (by norm_num)
  have e : (x % 26 + 65).toNat = 65 + (x % 26).toNat := by omega
  rw [e]
  exact upper_ofNat_bounds (by omega)

theorem encrypt_lower_bounds {ch : Char} (h1 : 'a' ≤ ch) (h2 : ch ≤ 'z') (s1 s2 : Int) :
    'a' ≤ encrypt_character ch s1 s2 ∧ encrypt_character ch s1 s2 ≤ 'z' := by
  by_cases hm : ch ≤ 'm'
  · rw [encrypt_lower_am h1 hm]
    exact ofNat_emod_lower _
  · have hn : 'n' ≤ ch := by
      rw [char_le_iff]
      rw [char_le_iff] at hm
      have := toNat_lower h1 h2
      have hn : ('n').toNat = 110 := rfl
      have hm' : ('m').toNat = 109 := rfl
      rw [hn]
      rw [hm'] at hm
      omega
    rw [encrypt_lower_nz hn h2]
    exact ofNat_emod_lower _

theorem encrypt_upper_bounds {ch : Char} (h1 : 'A' ≤ ch) (h2 : ch ≤ 'Z') (s1 s2 : Int) :
    'A' ≤ encrypt_character ch s1 s2 ∧ encrypt_character ch s1 s2 ≤ 'Z' := by
  by_cases hm : ch ≤ 'M'
  · rw [encrypt_upper_AM h1 hm]
    exact ofNat_emod_upper _
  · have hn : 'N' ≤ ch := by
      rw [char_le_iff]
      rw [char_le_iff] at hm
      have := toNat_upper h1 h2
      have hn : ('N').toNat = 78 := rfl
      have hm' : ('M').toNat = 77 := rfl
      rw [hn]
      rw [hm'] at hm
      omega
    rw [encrypt_upper_NZ hn h2]
    exact ofNat_emod_upper _

/-! ### Behaviour of the recovery search -/

theorem decrypt_lower_cases {ch : Char} (h1 : 'a' ≤ ch) (h2 : ch ≤ 'z') (s1 s2 : Int) :
    (∃ j, j < 26 ∧
        decrypt_character ch s1 s2 = Char.ofNat (97 + j) ∧
        encrypt_character (Char.ofNat (97 + j)) s1 s2 = ch ∧
        ∀ k, k < j → encrypt_character (Char.ofNat (97 + k)) s1 s2 ≠ ch) ∨
      (decrypt_character ch s1 s2 = ch ∧
        ∀ k, k < 26 → encrypt_character (Char.ofNat (97 + k)) s1 s2 ≠ ch) := by
  unfold decrypt_character
  rw [if_pos ⟨h1, h2⟩]
  cases hf : (List.range 26).find?
      (fun i => encrypt_character (Char.ofNat (97 + i)) s1 s2 == ch) with
  | some j =>
    obtain ⟨hpj, hjlt, hmin⟩ := find?_range_first hf
    refine Or.inl ⟨j, hjlt, rfl, beq_iff_eq.mp hpj, ?_⟩
    intro k hk hke
    have hfk : (encrypt_character (Char.ofNat (97 + k)) s1 s2 == ch) = false := hmin k hk
    rw [beq_iff_eq.mpr hke] at hfk
    exact Bool.noConfusion hfk
  | none =>
    refine Or.inr ⟨rfl, ?_⟩
    intro k hk hke
    have hfk := List.find?_eq_none.mp hf k (List.mem_range.mpr hk)
    exact hfk (beq_iff_eq.mpr hke)

theorem decrypt_upper_cases {ch : Char} (h1 : 'A' ≤ ch) (h2 : ch ≤ 'Z') (s1 s2 : Int) :
    (∃ j, j < 26 ∧
        decrypt_character ch s1 s2 = Char.ofNat (65 + j) ∧
        encrypt_character (Char.ofNat (65 + j)) s1 s2 = ch ∧
        ∀ k, k < j → encrypt_character (Char.ofNat (65 + k)) s1 s2 ≠ ch) ∨
      (decrypt_character ch s1 s2 = ch ∧
        ∀ k, k < 26 → encrypt_character (Char.ofNat (65 + k)) s1 s2 ≠ ch) := by
  unfold decrypt_character
  rw [if_neg fun hl => absurd (le_trans hl.1 h2) (by decide), if_pos ⟨h1, h2⟩]
  cases hf : (List.range 26).find?
      (fun i => encrypt_character (Char.ofNat (65 + i)) s1 s2 == ch) with
  | some j =>
    obtain ⟨hpj, hjlt, hmin⟩ := find?_range_first hf
    refine Or.inl ⟨j, hjlt, rfl, beq_iff_eq.mp hpj, ?_⟩
    intro k hk hke
    have hfk : (encrypt_character (Char.ofNat (65 + k)) s1 s2 == ch) = false := hmin k hk
    rw [beq_iff_eq.mpr hke] at hfk
    exact Bool.noConfusion hfk
  | none =>
    refine Or.inr ⟨rfl, ?_⟩
    intro k hk hke
    have hfk := List.find?_eq_none.mp hf k (List.mem_range.mpr hk)
    exact hfk (beq_iff_eq.mpr hke)

theorem decrypt_lower_bounds {ch : Char} (h1 : 'a' ≤ ch) (h2 : ch ≤ 'z') (s1 s2 : Int) :
    'a' ≤ decrypt_character ch s1 s2 ∧ decrypt_character ch s1 s2 ≤ 'z' := by
  rcases decrypt_lower_cases h1 h2 s1 s2 with ⟨j, hj, hdec, _, _⟩ | ⟨hdec, _⟩
  · rw [hdec]; exact lower_ofNat_bounds hj
  · rw [hdec]; exact ⟨h1, h2⟩

theorem decrypt_upper_bounds {ch : Char} (h1 : 'A' ≤ ch) (h2 : ch ≤ 'Z') (s1 s2 : Int) :
    'A' ≤ decrypt_character ch s1 s2 ∧ decrypt_character ch s1 s2 ≤ 'Z' := by
  rcases decrypt_upper_cases h1 h2 s1 s2 with ⟨j, hj, hdec, _, _⟩ | ⟨hdec, _⟩
  · rw [hdec]; exact upper_ofNat_bounds hj
  · rw [hdec]; exact ⟨h1, h2⟩

theorem decrypt_encrypt_lower {ch : Char} (h1 : 'a' ≤ ch) (h2 : ch ≤ 'z') (s1 s2 : Int) :
    'a' ≤ decrypt_character (encrypt_character ch s1 s2) s1 s2 ∧
    decrypt_character (encrypt_character ch s1 s2) s1 s2 ≤ 'z' ∧
    decrypt_character (encrypt_character ch s1 s2) s1 s2 ≤ ch ∧
    encrypt_character (decrypt_character (encrypt_character ch s1 s2) s1 s2) s1 s2 =
      encrypt_character ch s1 s2 := by
  obtain ⟨he1, he2⟩ := encrypt_lower_bounds h1 h2 s1 s2
  have hoff := toNat_lower h1 h2
  have hcand : encrypt_character (Char.ofNat (97 + (ch.toNat - 97))) s1 s2 =
      encrypt_character ch s1 s2 := by
    rw [lower_reconstruct h1 h2]
  rcases decrypt_lower_cases he1 he2 s1 s2 with ⟨j, hj26, hdec, hjenc, hjmin⟩ | ⟨_, hnone⟩
  · have hji : j ≤ ch.toNat - 97 := by
      by_contra hgt
      push_neg at hgt
      exact hjmin _ hgt hcand
    obtain ⟨hb1, hb2⟩ := lower_ofNat_bounds hj26
    rw [hdec]
    refine ⟨hb1, hb2, ?_, by rw [hjenc]⟩
    rw [char_le_iff, char_toNat_ofNat (by omega)]
    omega
  · exact absurd hcand (hnone _ (by omega))

theorem decrypt_encrypt_upper {ch : Char} (h1 : 'A' ≤ ch) (h2 : ch ≤ 'Z') (s1 s2 : Int) :
    'A' ≤ decrypt_character (encrypt_character ch s1 s2) s1 s2 ∧
    decrypt_character (encrypt_character ch s1 s2) s1 s2 ≤ 'Z' ∧
    decrypt_character (encrypt_character ch s1 s2) s1 s2 ≤ ch ∧
    encrypt_character (decrypt_character (encrypt_character ch s1 s2) s1 s2) s1 s2 =
      encrypt_character ch s1 s2 := by
  obtain ⟨he1, he2⟩ := encrypt_upper_bounds h1 h2 s1 s2
  have hoff := toNat_upper h1 h2
  have hcand : encrypt_character (Char.ofNat (65 + (ch.toNat - 65))) s1 s2 =
      encrypt_character ch s1 s2 := by
    rw [upper_reconstruct h1 h2]
  rcases decrypt_upper_cases he1 he2 s1 s2 with ⟨j, hj26, hdec, hjenc, hjmin⟩ | ⟨_, hnone⟩
  · have hji : j ≤ ch.toNat - 65 := by
      by_contra hgt
      push_neg at hgt
      exact hjmin _ hgt hcand
    obtain ⟨hb1, hb2⟩ := upper_ofNat_bounds hj26
    rw [hdec]
    refine ⟨hb1, hb2, ?_, by rw [hjenc]⟩
    rw [char_le_iff, char_toNat_ofNat (by omega)]
    omega
  · exact absurd hcand (hnone _ (by omega))

theorem roundtrip_image_char (ch : Char) (s1 s2 : Int) :
    encrypt_character (decrypt_character (encrypt_character ch s1 s2) s1 s2) s1 s2 =
      encrypt_character ch s1 s2 := by
  by_cases hl : 'a' ≤ ch ∧ ch ≤ 'z'
  · exact (decrypt_encrypt_lower hl.1 hl.2 s1 s2).2.2.2
  by_cases hu : 'A' ≤ ch ∧ ch ≤ 'Z'
  · exact (decrypt_encrypt_upper hu.1 hu.2 s1 s2).2.2.2
  rw [encrypt_other hl hu, decrypt_other hl hu, encrypt_other hl hu]

/-! ### The mismatch-collection loop computes a capped filter -/

theorem collect_eq_take (cap : Nat) :
    ∀ (l : List (Nat × Char × Char)) (cnt : Nat), cnt < cap →
      collectMismatches cap l cnt =
        ((l.filter fun p => p.2.1 != p.2.2).map
            fun p => Mismatch.charDiff p.1 p.2.1 p.2.2).take (cap - cnt) := by
  intro l
  induction l with
  | nil => intro cnt _; simp [collectMismatches]
  | cons hd tl ih =>
    intro cnt hcnt
    obtain ⟨i, a, b⟩ := hd
    by_cases hab : a = b
    · simp [collectMismatches, hab, List.filter_cons, ih cnt hcnt]
    · by_cases hreach : cnt + 1 ≥ cap
      · have hone : cap - cnt = 1 := by omega
        simp [collectMismatches, hab, hreach, List.filter_cons, hone]
      · have hsplit : cap - cnt = (cap - (cnt + 1)) + 1 := by omega
        simp [collectMismatches, hab, hreach, List.filter_cons, hsplit,
          ih (cnt + 1) (by omega)]

/-! ### Claims -/

/-- Claim C1, counterexample: the unconditional round-trip law fails on the
cipher text `"a"` with `shift1 = shift2 = 1`.  No lowercase candidate
encrypts to `'a'` there, so `decrypt_character` falls back to `'a'`, which
then re-encrypts to `'b'`. -/
theorem claim_C1_counterexample :
    decrypt_text ['a'] 1 1 = ['a'] ∧
    encrypt_text (decrypt_text ['a'] 1 1) 1 1 = ['b'] ∧
    encrypt_text (decrypt_text ['a'] 1 1) 1 1 ≠ ['a'] ∧
    verify_roundtrip ['a'] 1 1 = false := by decide

/-- Claim C1, amended: the round-trip law holds for every cipher text that
is itself an output of the forward transform: re-encrypting the recovered
text reproduces such a cipher text exactly, for every plain text and all
integer shifts, and `verify_roundtrip` accepts it. -/
theorem claim_C1 (plain : List Char) (s1 s2 : Int) :
    encrypt_text (decrypt_text (encrypt_text plain s1 s2) s1 s2) s1 s2 =
      encrypt_text plain s1 s2 ∧
    verify_roundtrip (encrypt_text plain s1 s2) s1 s2 = true := by
  have key : encrypt_text (decrypt_text (encrypt_text plain s1 s2) s1 s2) s1 s2 =
      encrypt_text plain s1 s2 := by
    unfold encrypt_text decrypt_text
    rw [List.map_map, List.map_map]
    exact List.map_congr_left fun ch _ => roundtrip_image_char ch s1 s2
  refine ⟨key, ?_⟩
  unfold verify_roundtrip
  rw [key]
  exact beq_self_eq_true _

/-- Claim C2: the forward transform follows the four-domain rule table of
the specification, with each domain shifted by its formula modulo 26 under
the spec's wrap expression, and every unclassified character returned
unchanged. -/
theorem claim_C2 (ch : Char) (s1 s2 : Int) :
    ('a' ≤ ch ∧ ch ≤ 'm' →
      encrypt_character ch s1 s2 =
        shiftWithWrap 97 ((ch.toNat : Int) - 97) (s1 * s2 % 26)) ∧
    ('n' ≤ ch ∧ ch ≤ 'z' →
      encrypt_character ch s1 s2 =
        shiftWithWrap 97 ((ch.toNat : Int) - 97) (-((s1 + s2) % 26))) ∧
    ('A' ≤ ch ∧ ch ≤ 'M' →
      encrypt_character ch s1 s2 =
        shiftWithWrap 65 ((ch.toNat : Int) - 65) (-(s1 % 26))) ∧
    ('N' ≤ ch ∧ ch ≤ 'Z' →
      encrypt_character ch s1 s2 =
        shiftWithWrap 65 ((ch.toNat : Int) - 65) (s2 * s2 % 26)) ∧
    (¬('a' ≤ ch ∧ ch ≤ 'z') → ¬('A' ≤ ch ∧ ch ≤ 'Z') →
      encrypt_character ch s1 s2 = ch) := by
  refine ⟨fun h => ?_, fun h => ?_, fun h => ?_, fun h => ?_,
    fun hl hu => encrypt_other hl hu s1 s2⟩
  · rw [encrypt_lower_am h.1 h.2]
    unfold shiftWithWrap
    congr 1
    generalize (s1 * s2 : Int) = t
    omega
  · rw [encrypt_lower_nz h.1 h.2]
    unfold shiftWithWrap
    congr 1
    omega
  · rw [encrypt_upper_AM h.1 h.2]
    unfold shiftWithWrap
    congr 1
    omega
  · rw [encrypt_upper_NZ h.1 h.2]
    unfold shiftWithWrap
    congr 1
    generalize (s2 * s2 : Int) = t
    omega

/-- Witness for claim C2: the rule table evaluated on one concrete
character of each domain with shifts `3, 4`. -/
theorem claim_C2_witness :
    encrypt_character 'e' 3 4 = shiftWithWrap 97 ((('e').toNat : Int) - 97) (3 * 4 % 26) ∧
    encrypt_character 'p' 3 4 = shiftWithWrap 97 ((('p').toNat : Int) - 97) (-((3 + 4) % 26)) ∧
    encrypt_character 'D' 3 4 = shiftWithWrap 65 ((('D').toNat : Int) - 65) (-(3 % 26)) ∧
    encrypt_character 'T' 3 4 = shiftWithWrap 65 ((('T').toNat : Int) - 65) (4 * 4 % 26) ∧
    encrypt_character '!' 3 4 = '!' :=
  ⟨(claim_C2 'e' 3 4).1 ⟨by decide, by decide⟩,
   (claim_C2 'p' 3 4).2.1 ⟨by decide, by decide⟩,
   (claim_C2 'D' 3 4).2.2.1 ⟨by decide, by decide⟩,
   (claim_C2 'T' 3 4).2.2.2.1 ⟨by decide, by decide⟩,
   (claim_C2 '!' 3 4).2.2.2.2 (by decide) (by decide)⟩

/-- Claim C3, counterexample: the forward transform is not surjective onto
the lowercase alphabet for all shifts.  With `shift1 = shift2 = 1` no
lowercase candidate encrypts to `'a'`, so the defensive fallback branch of
`decrypt_character` is reached and returns `'a'` unchanged. -/
theorem claim_C3_counterexample :
    ('a' ≤ 'a' ∧ 'a' ≤ 'z') ∧
    (∀ i, i < 26 → encrypt_character (Char.ofNat (97 + i)) 1 1 ≠ 'a') ∧
    decrypt_character 'a' 1 1 = 'a' := by decide

/-- Claim C3, amended: the forward transform is not surjective onto each
case alphabet for all shifts, so the defensive fallback of
`decrypt_character` is reachable; but whenever some candidate of the same
case alphabet encrypts to `ch`, the fallback is not taken and
`decrypt_character` returns such a candidate. -/
theorem claim_C3 (ch : Char) (s1 s2 : Int) :
    ('a' ≤ ch ∧ ch ≤ 'z' →
      (∃ i, i < 26 ∧ encrypt_character (Char.ofNat (97 + i)) s1 s2 = ch) →
      ∃ j, j < 26 ∧ decrypt_character ch s1 s2 = Char.ofNat (97 + j) ∧
        encrypt_character (Char.ofNat (97 + j)) s1 s2 = ch) ∧
    ('A' ≤ ch ∧ ch ≤ 'Z' →
      (∃ i, i < 26 ∧ encrypt_character (Char.ofNat (65 + i)) s1 s2 = ch) →
      ∃ j, j < 26 ∧ decrypt_character ch s1 s2 = Char.ofNat (65 + j) ∧
        encrypt_character (Char.ofNat (65 + j)) s1 s2 = ch) := by
  constructor
  · rintro ⟨h1, h2⟩ ⟨i, hi, henc⟩
    rcases decrypt_lower_cases h1 h2 s1 s2 with ⟨j, hj, hdec, hjenc, _⟩ | ⟨_, hnone⟩
    · exact ⟨j, hj, hdec, hjenc⟩
    · exact absurd henc (hnone i hi)
  · rintro ⟨h1, h2⟩ ⟨i, hi, henc⟩
    rcases decrypt_upper_cases h1 h2 s1 s2 with ⟨j, hj, hdec, hjenc, _⟩ | ⟨_, hnone⟩
    · exact ⟨j, hj, hdec, hjenc⟩
    · exact absurd henc (hnone i hi)

/-- Witness for claim C3: with shifts `2, 3` the candidate at offset `0`
(the letter `'a'`) encrypts to `'g'`, so recovering `'g'` returns a
matching lowercase candidate. -/
theorem claim_C3_witness :
    ∃ j, j < 26 ∧ decrypt_character 'g' 2 3 = Char.ofNat (97 + j) ∧
      encrypt_character (Char.ofNat (97 + j)) 2 3 = 'g' :=
  (claim_C3 'g' 2 3).1 ⟨by decide, by decide⟩ ⟨0, by decide, by decide⟩

/-- Claim C4: on a letter, `decrypt_character` returns the candidate with
the lowest alphabet offset in the same case alphabet that re-encrypts to
the letter: whenever any candidate offset matches, the returned candidate
matches, its offset is at or below every matching offset, and no smaller
offset matches. -/
theorem claim_C4 (ch : Char) (s1 s2 : Int) :
    ('a' ≤ ch ∧ ch ≤ 'z' →
      ∀ i, i < 26 → encrypt_character (Char.ofNat (97 + i)) s1 s2 = ch →
        ∃ j, j ≤ i ∧ decrypt_character ch s1 s2 = Char.ofNat (97 + j) ∧
          encrypt_character (Char.ofNat (97 + j)) s1 s2 = ch ∧
          ∀ k, k < j → encrypt_character (Char.ofNat (97 + k)) s1 s2 ≠ ch) ∧
    ('A' ≤ ch ∧ ch ≤ 'Z' →
      ∀ i, i < 26 → encrypt_character (Char.ofNat (65 + i)) s1 s2 = ch →
        ∃ j, j ≤ i ∧ decrypt_character ch s1 s2 = Char.ofNat (65 + j) ∧
          encrypt_character (Char.ofNat (65 + j)) s1 s2 = ch ∧
          ∀ k, k < j → encrypt_character (Char.ofNat (65 + k)) s1 s2 ≠ ch) := by
  constructor
  · rintro ⟨h1, h2⟩ i hi henc
    rcases decrypt_lower_cases h1 h2 s1 s2 with ⟨j, _, hdec, hjenc, hjmin⟩ | ⟨_, hnone⟩
    · refine ⟨j, ?_, hdec, hjenc, hjmin⟩
      by_contra hgt
      push_neg at hgt
      exact hjmin i hgt henc
    · exact absurd henc (hnone i hi)
  · rintro ⟨h1, h2⟩ i hi henc
    rcases decrypt_upper_cases h1 h2 s1 s2 with ⟨j, _, hdec, hjenc, hjmin⟩ | ⟨_, hnone⟩
    · refine ⟨j, ?_, hdec, hjenc, hjmin⟩
      by_contra hgt
      push_neg at hgt
      exact hjmin i hgt henc
    · exact absurd henc (hnone i hi)

/-- Witness for claim C4: with shifts `2, 3` the candidate at offset `4`
(the letter `'E'`) encrypts to `'C'`, so recovering `'C'` returns the
lowest-offset matching uppercase candidate. -/
theorem claim_C4_witness :
    ∃ j, j ≤ 4 ∧ decrypt_character 'C' 2 3 = Char.ofNat (65 + j) ∧
      encrypt_character (Char.ofNat (65 + j)) 2 3 = 'C' ∧
      ∀ k, k < j → encrypt_character (Char.ofNat (65 + k)) 2 3 ≠ 'C' :=
  (claim_C4 'C' 2 3).2 ⟨by decide, by decide⟩ 4 (by decide) (by decide)

/-- Claim C5: with `shift1 = 2` and `shift2 = 3`, both `'T'` and `'E'`
encrypt to `'C'`, and recovering `'C'` deterministically picks the
lower-offset candidate `'E'`. -/
theorem claim_C5 :
    encrypt_character 'T' 2 3 = 'C' ∧
    encrypt_character 'E' 2 3 = 'C' ∧
    encrypt_character 'T' 2 3 = encrypt_character 'E' 2 3 ∧
    decrypt_character 'C' 2 3 = 'E' := by decide

/-- Claim C6: the strict-equality check returns `(true, [])` exactly when
the two texts are equal; otherwise it returns `false` together with the
earliest differing positions as `(position, expected, actual)` records in
increasing position order, capped at `report_mismatches = 5`, plus a
trailing length-mismatch record when the texts differ in length and the
cap was not reached.  Being a total function, it never raises. -/
theorem claim_C6 (original decrypted : List Char) :
    (verify_strict original decrypted 5 = (true, []) ↔ original = decrypted) ∧
    (original ≠ decrypted →
      verify_strict original decrypted 5 =
        (false, specMismatchReport original decrypted 5)) := by
  have hmain : original ≠ decrypted →
      verify_strict original decrypted 5 =
        (false, specMismatchReport original decrypted 5) := by
    intro hne
    have hc : collectMismatches 5 ((original.zip decrypted).enum) 0 =
        specCharMismatches original decrypted 5 := by
      simpa [specCharMismatches] using
        collect_eq_take 5 ((original.zip decrypted).enum) 0 (by omega)
    unfold verify_strict specMismatchReport
    rw [if_neg hne]
    simp only [hc]
    by_cases hcond : (specCharMismatches original decrypted 5).length < 5 ∧
        original.length ≠ decrypted.length
    · rw [if_pos hcond, if_pos hcond]
    · rw [if_neg hcond, if_neg hcond]
  refine ⟨⟨?_, ?_⟩, hmain⟩
  · intro h
    by_contra hne
    rw [hmain hne] at h
    simp at h
  · intro h
    subst h
    unfold verify_strict
    rw [if_pos rfl]

/-- Witness for claim C6: two concretely differing texts of unequal length
produce the spec-side mismatch report. -/
theorem claim_C6_witness :
    verify_strict ['a', 'b'] ['a', 'c', 'd'] 5 =
      (false, specMismatchReport ['a', 'b'] ['a', 'c', 'd'] 5) :=
  (claim_C6 ['a', 'b'] ['a', 'c', 'd']).2 (by decide)

/-- Claim C7: shift parameters are arbitrary signed integers reduced
modulo 26; both transforms agree with themselves at the reduced shifts,
and on an alphabetic character both stay within the same 26-letter case
alphabet. -/
theorem claim_C7 (c : Char) (s1 s2 : Int) :
    encrypt_character c s1 s2 = encrypt_character c (s1 % 26) (s2 % 26) ∧
    decrypt_character c s1 s2 = decrypt_character c (s1 % 26) (s2 % 26) ∧
    ('a' ≤ c ∧ c ≤ 'z' →
      ('a' ≤ encrypt_character c s1 s2 ∧ encrypt_character c s1 s2 ≤ 'z') ∧
      ('a' ≤ decrypt_character c s1 s2 ∧ decrypt_character c s1 s2 ≤ 'z')) ∧
    ('A' ≤ c ∧ c ≤ 'Z' →
      ('A' ≤ encrypt_character c s1 s2 ∧ encrypt_character c s1 s2 ≤ 'Z') ∧
      ('A' ≤ decrypt_character c s1 s2 ∧ decrypt_character c s1 s2 ≤ 'Z')) :=
  ⟨(encrypt_character_emod c s1 s2).symm,
   (decrypt_character_emod c s1 s2).symm,
   fun h => ⟨encrypt_lower_bounds h.1 h.2 s1 s2, decrypt_lower_bounds h.1 h.2 s1 s2⟩,
   fun h => ⟨encrypt_upper_bounds h.1 h.2 s1 s2, decrypt_upper_bounds h.1 h.2 s1 s2⟩⟩

/-- Witness for claim C7: the alphabet-preservation clauses evaluated on
`'b'` and `'Q'` with a large positive and a negative shift. -/
theorem claim_C7_witness :
    ('a' ≤ encrypt_character 'b' 100 (-3) ∧ encrypt_character 'b' 100 (-3) ≤ 'z') ∧
    ('a' ≤ decrypt_character 'b' 100 (-3) ∧ decrypt_character 'b' 100 (-3) ≤ 'z') ∧
    ('A' ≤ encrypt_character 'Q' 100 (-3) ∧ encrypt_character 'Q' 100 (-3) ≤ 'Z') ∧
    ('A' ≤ decrypt_character 'Q' 100 (-3) ∧ decrypt_character 'Q' 100 (-3) ≤ 'Z') :=
  ⟨((claim_C7 'b' 100 (-3)).2.2.1 ⟨by decide, by decide⟩).1,
   ((claim_C7 'b' 100 (-3)).2.2.1 ⟨by decide, by decide⟩).2,
   ((claim_C7 'Q' 100 (-3)).2.2.2 ⟨by decide, by decide⟩).1,
   ((claim_C7 'Q' 100 (-3)).2.2.2 ⟨by decide, by decide⟩).2⟩

/-- Claim C8: every character outside both case alphabets is returned
unchanged by the forward and the recovery transform, for any integer
shifts. -/
theorem claim_C8 (c : Char) (s1 s2 : Int) (hl : ¬('a' ≤ c ∧ c ≤ 'z'))
    (hu : ¬('A' ≤ c ∧ c ≤ 'Z')) :
    encrypt_character c s1 s2 = c ∧ decrypt_character c s1 s2 = c :=
  ⟨encrypt_other hl hu s1 s2, decrypt_other hl hu s1 s2⟩

/-- Witness for claim C8: the digit `'7'` is fixed by both transforms. -/
theorem claim_C8_witness :
    encrypt_character '7' 5 9 = '7' ∧ decrypt_character '7' 5 9 = '7' :=
  claim_C8 '7' 5 9 (by decide) (by decide)

/-- Claim C9: batch application of either transform preserves the length
of the text, and the character at each position of the output is the
transform of the character at the same position of the input, depending on
nothing else. -/
theorem claim_C9 (T : List Char) (s1 s2 : Int) :
    (encrypt_text T s1 s2).length = T.length ∧
    (decrypt_text T s1 s2).length = T.length ∧
    (∀ i : Nat, (encrypt_text T s1 s2)[i]? =
      Option.map (fun ch => encrypt_character ch s1 s2) T[i]?) ∧
    (∀ i : Nat, (decrypt_text T s1 s2)[i]? =
      Option.map (fun ch => decrypt_character ch s1 s2) T[i]?) := by
  refine ⟨?_, ?_, fun i => ?_, fun i => ?_⟩ <;>
    simp [encrypt_text, decrypt_text, List.getElem?_map]

/-- Claim C10: on a letter, recovering its encryption yields a letter of
the same case alphabet whose offset is at most that of the letter, and
which re-encrypts to the encryption; consequently the round-trip law holds
on the image of the forward transform for every character. -/
theorem claim_C10 (ch : Char) (s1 s2 : Int) :
    ('a' ≤ ch ∧ ch ≤ 'z' →
      ('a' ≤ decrypt_character (encrypt_character ch s1 s2) s1 s2 ∧
        decrypt_character (encrypt_character ch s1 s2) s1 s2 ≤ 'z') ∧
      decrypt_character (encrypt_character ch s1 s2) s1 s2 ≤ ch ∧
      encrypt_character (decrypt_character (encrypt_character ch s1 s2) s1 s2) s1 s2 =
        encrypt_character ch s1 s2) ∧
    ('A' ≤ ch ∧ ch ≤ 'Z' →
      ('A' ≤ decrypt_character (encrypt_character ch s1 s2) s1 s2 ∧
        decrypt_character (encrypt_character ch s1 s2) s1 s2 ≤ 'Z') ∧
      decrypt_character (encrypt_character ch s1 s2) s1 s2 ≤ ch ∧
      encrypt_character (decrypt_character (encrypt_character ch s1 s2) s1 s2) s1 s2 =
        encrypt_character ch s1 s2) ∧
    encrypt_character (decrypt_character (encrypt_character ch s1 s2) s1 s2) s1 s2 =
      encrypt_character ch s1 s2 := by
  refine ⟨fun h => ?_, fun h => ?_, roundtrip_image_char ch s1 s2⟩
  · obtain ⟨a, b, c, d⟩ := decrypt_encrypt_lower h.1 h.2 s1 s2
    exact ⟨⟨a, b⟩, c, d⟩
  · obtain ⟨a, b, c, d⟩ := decrypt_encrypt_upper h.1 h.2 s1 s2
    exact ⟨⟨a, b⟩, c, d⟩

/-- Witness for claim C10: the letter clauses evaluated on `'z'` and `'Q'`
with shifts `-5, 7`. -/
theorem claim_C10_witness :
    (('a' ≤ decrypt_character (encrypt_character 'z' (-5) 7) (-5) 7 ∧
       decrypt_character (encrypt_character 'z' (-5) 7) (-5) 7 ≤ 'z') ∧
      decrypt_character (encrypt_character 'z' (-5) 7) (-5) 7 ≤ 'z' ∧
      encrypt_character (decrypt_character (encrypt_character 'z' (-5) 7) (-5) 7) (-5) 7 =
        encrypt_character 'z' (-5) 7) ∧
    (('A' ≤ decrypt_character (encrypt_character 'Q' (-5) 7) (-5) 7 ∧
       decrypt_character (encrypt_character 'Q' (-5) 7) (-5) 7 ≤ 'Z') ∧
      decrypt_character (encrypt_character 'Q' (-5) 7) (-5) 7 ≤ 'Q' ∧
      encrypt_character (decrypt_character (encrypt_character 'Q' (-5) 7) (-5) 7) (-5) 7 =
        encrypt_character 'Q' (-5) 7) :=
  ⟨(claim_C10 'z' (-5) 7).1 ⟨by decide, by decide⟩,
   (claim_C10 'Q' (-5) 7).2.1 ⟨by decide, by decide⟩⟩
